import Mathlib

/-!
Verification development for the `oscar_server` native audio engine
(`src/oscar_server/main.cpp`): a wavetable synthesizer (`Synth`), a routing
record (`Patch`), and an `AudioEngine` owning name-keyed maps of both, a
master volume, a master phase counter, deferred-deletion queues and the
realtime render callback.

The C++ code is embedded shallowly: `float`/`double` arithmetic is modelled
exactly over `ℚ`, `std::vector<float>` as `List ℚ`, `std::map` as an
association list with insert-or-assign and erase operations, and the
interleaved output buffer written by the callback as a finitely supported
function `ℤ → ℚ` from flat buffer offsets to accumulated samples.
-/

/-- Truncation toward zero, as C's `fmod` and a C cast to an integer type
truncate: floor for non-negative arguments, ceiling for negative ones. -/
def qtrunc (x : ℚ) : ℤ :=
  if 0 ≤ x then ⌊x⌋ else ⌈x⌉

/-- C's `fmod x n`: `x - n * trunc (x / n)`.  The result has the sign of `x`
and magnitude below `|n|` (for `n ≠ 0`). -/
def cfmod (x n : ℚ) : ℚ :=
  x - n * ((qtrunc (x / n) : ℤ) : ℚ)

theorem qtrunc_of_nonneg {x : ℚ} (h : 0 ≤ x) : qtrunc x = ⌊x⌋ :=
  if_pos h

theorem cfmod_bounds (x n : ℚ) (hn : 0 < n) : -n < cfmod x n ∧ cfmod x n < n := by
  have hne : n ≠ 0 := ne_of_gt hn
  have hx : cfmod x n = n * (x / n - ((qtrunc (x / n) : ℤ) : ℚ)) := by
    unfold cfmod
    field_simp
  have hb : -1 < x / n - ((qtrunc (x / n) : ℤ) : ℚ) ∧
      x / n - ((qtrunc (x / n) : ℤ) : ℚ) < 1 := by
    unfold qtrunc
    split
    · refine ⟨?_, ?_⟩
      · have h1 := Int.floor_le (x / n)
        linarith
      · have h2 := Int.lt_floor_add_one (x / n)
        linarith
    · refine ⟨?_, ?_⟩
      · have h1 := Int.ceil_lt_add_one (x / n)
        linarith
      · have h2 := Int.le_ceil (x / n)
        linarith
  constructor
  · rw [hx]
    nlinarith [hb.1, hb.2]
  · rw [hx]
    nlinarith [hb.1, hb.2]

/-- The wrap step used by `Synth::render`: `fmod`, then add the modulus back
when the result is negative. For a positive modulus the result lands in
`[0, n)`. -/
theorem cfmod_fixup_mem (x n : ℚ) (hn : 0 < n) :
    0 ≤ (if cfmod x n < 0 then cfmod x n + n else cfmod x n) ∧
    (if cfmod x n < 0 then cfmod x n + n else cfmod x n) < n := by
  obtain ⟨h1, h2⟩ := cfmod_bounds x n hn
  split <;> constructor <;> linarith

/-- One oscillator voice (`class Synth` in `main.cpp`).  Member-initializer
defaults from the C++ declaration: stopped, phase offset `0`, amplitude
`0.5`, frequency `440`. -/
structure Synth where
  is_playing : Bool := false
  phase_offset : ℚ := 0
  sample_rate : ℚ
  amplitude : ℚ := 1/2
  frequency : ℚ := 440
  wavetable : List ℚ
deriving DecidableEq

/-- The `Synth(double sample_rate, std::vector<float> table)` constructor:
takes ownership of the table, and pushes a single `0` sample if the given
table is empty. -/
def Synth.make (sample_rate : ℚ) (table : List ℚ) : Synth :=
  if table = [] then { sample_rate := sample_rate, wavetable := [0] }
  else { sample_rate := sample_rate, wavetable := table }

/-- The wrapped phase computed inside the `Synth::render` loop for master
phase `phi`:
`phase_with_offset = ((phi * frequency) / sample_rate) * table_size + phase_offset * table_size`,
then `fmod` by the table size, adding the table size back if negative. -/
def Synth.phaseWrapped (s : Synth) (phi : ℚ) : ℚ :=
  if cfmod (((phi * s.frequency) / s.sample_rate) * ((s.wavetable.length : ℕ) : ℚ) +
        s.phase_offset * ((s.wavetable.length : ℕ) : ℚ)) ((s.wavetable.length : ℕ) : ℚ) < 0 then
    cfmod (((phi * s.frequency) / s.sample_rate) * ((s.wavetable.length : ℕ) : ℚ) +
        s.phase_offset * ((s.wavetable.length : ℕ) : ℚ)) ((s.wavetable.length : ℕ) : ℚ) +
      ((s.wavetable.length : ℕ) : ℚ)
  else
    cfmod (((phi * s.frequency) / s.sample_rate) * ((s.wavetable.length : ℕ) : ℚ) +
        s.phase_offset * ((s.wavetable.length : ℕ) : ℚ)) ((s.wavetable.length : ℕ) : ℚ)

/-- The sample the `Synth::render` loop writes for master phase `phi`:
`i0 = (unsigned int) phase_wrapped` (truncation), `i1 = (i0 + 1) % size`,
`frac = phase_wrapped - i0`, output `(val0 + frac * (val1 - val0)) * amplitude`. -/
def Synth.renderSample (s : Synth) (phi : ℚ) : ℚ :=
  (s.wavetable.getD (qtrunc (s.phaseWrapped phi)).toNat 0 +
      (s.phaseWrapped phi - (((qtrunc (s.phaseWrapped phi)).toNat : ℕ) : ℚ)) *
        (s.wavetable.getD (((qtrunc (s.phaseWrapped phi)).toNat + 1) % s.wavetable.length) 0 -
          s.wavetable.getD (qtrunc (s.phaseWrapped phi)).toNat 0)) *
    s.amplitude

/-- `Synth::render(mono_out, frames, master_phase_start)`: if the wavetable is
empty, return leaving the buffer untouched; otherwise overwrite each of the
`frames` slots with the sample at master phase `master_phase_start + i`
(the local master phase is incremented by `1` per frame). -/
def Synth.render (s : Synth) (mono : List ℚ) (frames : ℕ) (phi : ℚ) : List ℚ :=
  if s.wavetable = [] then mono
  else (List.range frames).map fun (i : ℕ) => s.renderSample (phi + (i : ℚ))

/-- `Synth::start`. -/
def Synth.start (s : Synth) : Synth := { s with is_playing := true }

/-- `Synth::stop`. -/
def Synth.stop (s : Synth) : Synth := { s with is_playing := false }

/-- `Synth::set_frequency`. -/
def Synth.set_frequency (s : Synth) (freq : ℚ) : Synth := { s with frequency := freq }

/-- `Synth::set_amplitude`. -/
def Synth.set_amplitude (s : Synth) (amp : ℚ) : Synth := { s with amplitude := amp }

/-- `Synth::set_phase_offset`. -/
def Synth.set_phase_offset (s : Synth) (offset : ℚ) : Synth := { s with phase_offset := offset }

/-- `Synth::update_wavetable`: a silent no-op on an empty replacement,
otherwise replaces the table. -/
def Synth.update_wavetable (s : Synth) (new_table : List ℚ) : Synth :=
  if new_table = [] then s else { s with wavetable := new_table }

/-- Spec-side index `i0 = floor(phase_wrapped)` exactly as the claim states it
(the code uses a truncating cast instead of a floor). -/
def Synth.specI0 (s : Synth) (phi : ℚ) : ℕ :=
  (⌊s.phaseWrapped phi⌋).toNat

/-- Spec-side index `i1 = (i0 + 1) mod table_size`. -/
def Synth.specI1 (s : Synth) (phi : ℚ) : ℕ :=
  (s.specI0 phi + 1) % s.wavetable.length

/-- Spec-side sample
`(wavetable[i0] + frac * (wavetable[i1] - wavetable[i0])) * amplitude` with
`frac = phase_wrapped - i0`, from §4.2 of the spec. -/
def Synth.specSample (s : Synth) (phi : ℚ) : ℚ :=
  (s.wavetable.getD (s.specI0 phi) 0 +
      (s.phaseWrapped phi - ((s.specI0 phi : ℕ) : ℚ)) *
        (s.wavetable.getD (s.specI1 phi) 0 - s.wavetable.getD (s.specI0 phi) 0)) *
    s.amplitude

theorem wavetable_length_pos_rat {s : Synth} (h : s.wavetable ≠ []) :
    (0 : ℚ) < ((s.wavetable.length : ℕ) : ℚ) := by
  have : 0 < s.wavetable.length := List.length_pos.mpr h
  exact_mod_cast this

theorem phaseWrapped_nonneg (s : Synth) (phi : ℚ) (h : s.wavetable ≠ []) :
    0 ≤ s.phaseWrapped phi :=
  (cfmod_fixup_mem _ _ (wavetable_length_pos_rat h)).1

theorem phaseWrapped_lt (s : Synth) (phi : ℚ) (h : s.wavetable ≠ []) :
    s.phaseWrapped phi < ((s.wavetable.length : ℕ) : ℚ) :=
  (cfmod_fixup_mem _ _ (wavetable_length_pos_rat h)).2

theorem specI0_lt (s : Synth) (phi : ℚ) (h : s.wavetable ≠ []) :
    s.specI0 phi < s.wavetable.length := by
  have h0 : 0 ≤ ⌊s.phaseWrapped phi⌋ :=
    Int.floor_nonneg.mpr (phaseWrapped_nonneg s phi h)
  have h1 : ⌊s.phaseWrapped phi⌋ < (s.wavetable.length : ℤ) := by
    rw [Int.floor_lt]
    exact_mod_cast phaseWrapped_lt s phi h
  unfold Synth.specI0
  omega

theorem specI1_lt (s : Synth) (phi : ℚ) (h : s.wavetable ≠ []) :
    s.specI1 phi < s.wavetable.length :=
  Nat.mod_lt _ (List.length_pos.mpr h)

theorem renderSample_eq_specSample (s : Synth) (phi : ℚ) (h : s.wavetable ≠ []) :
    s.renderSample phi = s.specSample phi := by
  unfold Synth.renderSample Synth.specSample Synth.specI1 Synth.specI0
  rw [qtrunc_of_nonneg (phaseWrapped_nonneg s phi h)]

theorem render_getD (s : Synth) (mono : List ℚ) (frames : ℕ) (phi : ℚ)
    (h : s.wavetable ≠ []) {i : ℕ} (hi : i < frames) :
    (s.render mono frames phi).getD i 0 = s.renderSample (phi + (i : ℚ)) := by
  unfold Synth.render
  rw [if_neg h, List.getD_eq_getElem?_getD, List.getElem?_map, List.getElem?_range hi]
  rfl

theorem render_length (s : Synth) (mono : List ℚ) (frames : ℕ) (phi : ℚ)
    (h : s.wavetable ≠ []) :
    (s.render mono frames phi).length = frames := by
  unfold Synth.render
  rw [if_neg h, List.length_map, List.length_range]

/-- A routing record (`class Patch` in `main.cpp`): a synth name and the
output channels the synth is mixed into. Channel indices are C `int`s. -/
structure Patch where
  synth_name : String
  channels : List ℤ
deriving DecidableEq

/-- `std::map::find`, on the association-list model of the engine's maps. -/
def mapFind? {α : Type} (k : String) : List (String × α) → Option α
  | [] => none
  | p :: rest => if p.1 = k then some p.2 else mapFind? k rest

/-- `std::map` insert-or-assign (`m[k] = v`): replace the value at an
existing key, otherwise add the entry. -/
def mapInsert {α : Type} (k : String) (v : α) : List (String × α) → List (String × α)
  | [] => [(k, v)]
  | p :: rest => if p.1 = k then (k, v) :: rest else p :: mapInsert k v rest

/-- `std::map::erase` by key. -/
def mapErase {α : Type} (k : String) (m : List (String × α)) : List (String × α) :=
  m.filter fun p => decide (p.1 ≠ k)

theorem mapFind?_insert_self {α : Type} (k : String) (v : α) (m : List (String × α)) :
    mapFind? k (mapInsert k v m) = some v := by
  induction m with
  | nil => simp [mapInsert, mapFind?]
  | cons p rest ih =>
    by_cases h : p.1 = k
    · simp [mapInsert, mapFind?, h]
    · simp [mapInsert, mapFind?, h, ih]

theorem mapFind?_mem {α : Type} {k : String} {v : α} {m : List (String × α)}
    (h : mapFind? k m = some v) : (k, v) ∈ m := by
  induction m with
  | nil => simp [mapFind?] at h
  | cons p rest ih =>
    by_cases hp : p.1 = k
    · simp only [mapFind?, if_pos hp] at h
      obtain ⟨p1, p2⟩ := p
      obtain rfl : p2 = v := by injection h
      obtain rfl : p1 = k := hp
      exact List.mem_cons_self _ _
    · simp only [mapFind?, if_neg hp] at h
      exact List.mem_cons_of_mem _ (ih h)

theorem not_mem_keys_mapErase_self {α : Type} (k : String) (m : List (String × α)) :
    k ∉ (mapErase k m).map Prod.fst := by
  intro hmem
  obtain ⟨p, hp, hk⟩ := List.mem_map.mp hmem
  have := (List.mem_filter.mp hp).2
  simp only [decide_eq_true_eq] at this
  exact this hk

theorem keys_mapErase_subset {α : Type} (k k' : String) (m : List (String × α))
    (h : k' ∉ m.map Prod.fst) : k' ∉ (mapErase k m).map Prod.fst := by
  intro hmem
  obtain ⟨p, hp, hk⟩ := List.mem_map.mp hmem
  exact h (List.mem_map.mpr ⟨p, (List.mem_filter.mp hp).1, hk⟩)

theorem foldl_mapErase_keeps_out {α : Type} (names : List String) (k : String) :
    ∀ m : List (String × α), k ∉ m.map Prod.fst →
      k ∉ (names.foldl (fun acc n => mapErase n acc) m).map Prod.fst := by
  induction names with
  | nil => intro m hm; exact hm
  | cons n rest ih =>
    intro m hm
    exact ih (mapErase n m) (keys_mapErase_subset n k m hm)

theorem foldl_mapErase_not_mem {α : Type} (names : List String) (k : String)
    (hk : k ∈ names) :
    ∀ m : List (String × α),
      k ∉ (names.foldl (fun acc n => mapErase n acc) m).map Prod.fst := by
  induction names with
  | nil => cases hk
  | cons n rest ih =>
    intro m
    by_cases h : k = n
    · subst h
      exact foldl_mapErase_keeps_out rest k (mapErase k m) (not_mem_keys_mapErase_self k m)
    · have hk' : k ∈ rest := by
        cases hk with
        | head => exact absurd rfl h
        | tail _ hmem => exact hmem
      exact ih hk' (mapErase n m)

/-- The engine state (`class AudioEngine` in `main.cpp`): sample rate and
channel count fixed at construction, master volume (default `1`), the shared
master phase counter (starts at `0`), the two name-keyed maps and the two
deferred-deletion queues. -/
structure AudioEngine where
  sample_rate : ℚ
  numOutputChannels : ℤ
  master_volume : ℚ := 1
  master_phase : ℚ := 0
  synths : List (String × Synth) := []
  patches : List (String × Patch) := []
  synth_names_to_delete : List String := []
  patch_names_to_delete : List String := []
deriving DecidableEq

/-- `AudioEngine::_cleanup`: if both deletion queues are empty do nothing;
otherwise erase the queued patch names first, then the queued synth names,
and clear both queues. -/
def AudioEngine.cleanup (e : AudioEngine) : AudioEngine :=
  if e.synth_names_to_delete = [] ∧ e.patch_names_to_delete = [] then e
  else
    { e with
      patches := e.patch_names_to_delete.foldl (fun acc n => mapErase n acc) e.patches,
      synths := e.synth_names_to_delete.foldl (fun acc n => mapErase n acc) e.synths,
      patch_names_to_delete := [],
      synth_names_to_delete := [] }

/-- `AudioEngine::get_or_create_synth`: replace the wavetable of an existing
synth of that name (a no-op for an empty table) and return it, or register a
freshly constructed synth at the engine's sample rate.  Returns the new
engine state and the synth handed back to the caller. -/
def AudioEngine.get_or_create_synth (e : AudioEngine) (name : String) (table : List ℚ) :
    AudioEngine × Synth :=
  match mapFind? name e.synths with
  | some s =>
    ({ e with synths := mapInsert name (s.update_wavetable table) e.synths },
      s.update_wavetable table)
  | none =>
    ({ e with synths := mapInsert name (Synth.make e.sample_rate table) e.synths },
      Synth.make e.sample_rate table)

/-- `AudioEngine::get_or_create_patch`: throws when the synth name is not
registered; otherwise overwrites an existing patch's binding and channels, or
registers a new patch. -/
def AudioEngine.get_or_create_patch (e : AudioEngine) (patch_name synth_name : String)
    (channels : List ℤ) : Except String (AudioEngine × Patch) :=
  if (mapFind? synth_name e.synths).isNone then
    Except.error "Cannot create patch: synth does not exist."
  else
    match mapFind? patch_name e.patches with
    | some _ =>
      Except.ok
        ({ e with
            patches :=
              mapInsert patch_name
                { synth_name := synth_name, channels := channels } e.patches },
          { synth_name := synth_name, channels := channels })
    | none =>
      Except.ok
        ({ e with
            patches :=
              mapInsert patch_name
                { synth_name := synth_name, channels := channels } e.patches },
          { synth_name := synth_name, channels := channels })

/-- The engine state after a `get_or_create_patch` call: the returned state on
success; on a throw the engine is left exactly as it was. -/
def AudioEngine.patchCallState (e : AudioEngine) (patch_name synth_name : String)
    (channels : List ℤ) : AudioEngine :=
  match e.get_or_create_patch patch_name synth_name channels with
  | Except.ok r => r.1
  | Except.error _ => e

/-- `AudioEngine::delete_synth`: a no-op for an unknown name; otherwise
enqueue the synth name and the name of every patch currently bound to it. -/
def AudioEngine.delete_synth (e : AudioEngine) (name : String) : AudioEngine :=
  if (mapFind? name e.synths).isNone then e
  else
    { e with
      synth_names_to_delete := e.synth_names_to_delete ++ [name],
      patch_names_to_delete :=
        e.patch_names_to_delete ++
          ((e.patches.filter fun pr => decide (pr.2.synth_name = name)).map Prod.fst) }

/-- `AudioEngine::delete_patch`: a no-op for an unknown name, otherwise
enqueue the patch name. -/
def AudioEngine.delete_patch (e : AudioEngine) (name : String) : AudioEngine :=
  if (mapFind? name e.patches).isNone then e
  else { e with patch_names_to_delete := e.patch_names_to_delete ++ [name] }

/-- `AudioEngine::list_synths`. -/
def AudioEngine.list_synths (e : AudioEngine) : List String :=
  e.synths.map Prod.fst

/-- `AudioEngine::list_patches`. -/
def AudioEngine.list_patches (e : AudioEngine) : List String :=
  e.patches.map Prod.fst

/-- `AudioEngine::set_master_volume`. -/
def AudioEngine.set_master_volume (e : AudioEngine) (volume : ℚ) : AudioEngine :=
  { e with master_volume := volume }

/-- `AudioEngine::stop_all`: stops every registered synth. -/
def AudioEngine.stop_all (e : AudioEngine) : AudioEngine :=
  { e with synths := e.synths.map fun pr => (pr.1, pr.2.stop) }

/-- The inner frame loop of the callback for one channel index `c`:
`out[frame * numOutputChannels + c] += mono_buffer[frame] * master_volume`
for every `frame` below the given frame count.  The interleaved output
buffer is modelled as a total function from flat `ℤ` offsets to samples, so
an out-of-bounds offset (e.g. a negative one) is visible as a write at a
flat position outside `[0, frames * numOutputChannels)`. -/
def flatWrite (numCh : ℤ) (vol : ℚ) (mono : List ℚ) (c : ℤ) (o : ℤ → ℚ) : ℕ → (ℤ → ℚ)
  | 0 => o
  | n + 1 =>
    Function.update (flatWrite numCh vol mono c o n) ((n : ℤ) * numCh + c)
      (flatWrite numCh vol mono c o n ((n : ℤ) * numCh + c) + mono.getD n 0 * vol)

/-- The channel loop of the callback for one patch: for each listed channel
index, if `channel_index < numOutputChannels` (the only bound the code
checks), accumulate the scaled mono buffer into the interleaved output. -/
def channelsWrite (numCh : ℤ) (vol : ℚ) (mono : List ℚ) (frames : ℕ) :
    List ℤ → (ℤ → ℚ) → (ℤ → ℚ)
  | [], o => o
  | ch :: rest, o =>
    channelsWrite numCh vol mono frames rest
      (if ch < numCh then flatWrite numCh vol mono ch o frames else o)

/-- One iteration of the patch loop in `AudioEngine::paCallback`: look the
patch's synth up; if present and playing, render it into the (shared,
reused) mono scratch buffer and accumulate it on the patch's channels;
otherwise leave both the scratch buffer and the output untouched. -/
def AudioEngine.mixPatch (e : AudioEngine) (frames : ℕ) (phi vol : ℚ)
    (st : List ℚ × (ℤ → ℚ)) (pr : String × Patch) : List ℚ × (ℤ → ℚ) :=
  match mapFind? pr.2.synth_name e.synths with
  | some s =>
    if s.is_playing then
      (s.render st.1 frames phi,
        channelsWrite e.numOutputChannels vol (s.render st.1 frames phi) frames
          pr.2.channels st.2)
    else st
  | none => st

/-- The patch loop of `AudioEngine::paCallback` over a list of patches. -/
def AudioEngine.mixPatches (e : AudioEngine) (frames : ℕ) (phi vol : ℚ) :
    List (String × Patch) → List ℚ × (ℤ → ℚ) → List ℚ × (ℤ → ℚ)
  | [], st => st
  | pr :: rest, st => e.mixPatches frames phi vol rest (e.mixPatch frames phi vol st pr)

/-- `AudioEngine::paCallback`: run `_cleanup`, zero the output buffer,
allocate a zeroed mono scratch buffer, read the master phase and volume,
mix every patch, and store `master_phase + framesPerBuffer`.  Returns the
new engine state and the output buffer as a function from flat offsets. -/
def AudioEngine.paCallback (e : AudioEngine) (frames : ℕ) : AudioEngine × (ℤ → ℚ) :=
  let e1 := e.cleanup
  let st :=
    e1.mixPatches frames e1.master_phase e1.master_volume e1.patches
      (List.replicate frames 0, fun _ => 0)
  ({ e1 with master_phase := e1.master_phase + (frames : ℚ) }, st.2)

/-- The contribution one patch makes to output channel `c` at frame `f`, as
the spec's mixing rule states it: the rendered sample of the patch's synth
when that synth exists, is playing and the patch's channel list contains
`c`; zero otherwise. -/
def AudioEngine.patchContribution (e : AudioEngine) (phi : ℚ) (f : ℕ) (c : ℤ)
    (pr : String × Patch) : ℚ :=
  match mapFind? pr.2.synth_name e.synths with
  | some s => if s.is_playing = true ∧ c ∈ pr.2.channels then s.renderSample (phi + (f : ℚ)) else 0
  | none => 0

theorem cleanup_eq_self {e : AudioEngine} (h1 : e.synth_names_to_delete = [])
    (h2 : e.patch_names_to_delete = []) : e.cleanup = e := by
  unfold AudioEngine.cleanup
  rw [if_pos ⟨h1, h2⟩]

theorem cleanup_master_phase (e : AudioEngine) : e.cleanup.master_phase = e.master_phase := by
  unfold AudioEngine.cleanup
  split <;> rfl

theorem cleanup_master_volume (e : AudioEngine) : e.cleanup.master_volume = e.master_volume := by
  unfold AudioEngine.cleanup
  split <;> rfl

/-- Two flat offsets built from in-range channels and arbitrary frames can
only coincide when the channels coincide. -/
theorem frame_channel_ne (numCh : ℤ) (hnc : 0 < numCh) {f g : ℕ} {c d : ℤ}
    (hc0 : 0 ≤ c) (hc1 : c < numCh) (hd0 : 0 ≤ d) (hd1 : d < numCh)
    (hne : c ≠ d) : (f : ℤ) * numCh + c ≠ (g : ℤ) * numCh + d := by
  intro h
  have hk : ((f : ℤ) - (g : ℤ)) * numCh = d - c := by linear_combination h
  rcases lt_trichotomy ((f : ℤ) - (g : ℤ)) 0 with hlt | heq | hgt
  · have h1 : (f : ℤ) - (g : ℤ) ≤ -1 := by omega
    have h2 : ((f : ℤ) - (g : ℤ)) * numCh ≤ (-1) * numCh :=
      mul_le_mul_of_nonneg_right h1 (le_of_lt hnc)
    omega
  · rw [heq, zero_mul] at hk
    exact hne (by omega)
  · have h1 : (1 : ℤ) ≤ (f : ℤ) - (g : ℤ) := by omega
    have h2 : (1 : ℤ) * numCh ≤ ((f : ℤ) - (g : ℤ)) * numCh :=
      mul_le_mul_of_nonneg_right h1 (le_of_lt hnc)
    omega

/-- Flat offsets on the same channel differ whenever the frames differ. -/
theorem frame_ne (numCh : ℤ) (hnc : numCh ≠ 0) (c : ℤ) {f g : ℕ} (h : f ≠ g) :
    (f : ℤ) * numCh + c ≠ (g : ℤ) * numCh + c := by
  intro heq
  have h1 : ((f : ℤ) - (g : ℤ)) * numCh = 0 := by linear_combination heq
  rcases mul_eq_zero.mp h1 with h2 | h2
  · have : (f : ℤ) = (g : ℤ) := by omega
    exact h (by exact_mod_cast this)
  · exact hnc h2

theorem flatWrite_ne (numCh : ℤ) (vol : ℚ) (mono : List ℚ) (c : ℤ) (o : ℤ → ℚ)
    (frames : ℕ) {idx : ℤ} (h : ∀ f : ℕ, f < frames → idx ≠ (f : ℤ) * numCh + c) :
    flatWrite numCh vol mono c o frames idx = o idx := by
  induction frames with
  | zero => rfl
  | succ n ih =>
    simp only [flatWrite]
    rw [Function.update_noteq (h n (Nat.lt_succ_self n))]
    exact ih fun f hf => h f (Nat.lt_succ_of_lt hf)

theorem flatWrite_at (numCh : ℤ) (hnc : numCh ≠ 0) (vol : ℚ) (mono : List ℚ) (c : ℤ)
    (o : ℤ → ℚ) (frames : ℕ) {f : ℕ} (hf : f < frames) :
    flatWrite numCh vol mono c o frames ((f : ℤ) * numCh + c) =
      o ((f : ℤ) * numCh + c) + mono.getD f 0 * vol := by
  induction frames with
  | zero => cases hf
  | succ n ih =>
    simp only [flatWrite]
    by_cases hfn : f = n
    · subst hfn
      rw [Function.update_same]
      rw [flatWrite_ne numCh vol mono c o f
          (fun g hg => (frame_ne numCh hnc c (Nat.ne_of_lt hg)).symm)]
    · rw [Function.update_noteq (frame_ne numCh hnc c hfn)]
      exact ih (by omega)

theorem channelsWrite_not_hit (numCh : ℤ) (vol : ℚ) (mono : List ℚ) (frames : ℕ)
    (chs : List ℤ) {idx : ℤ} :
    ∀ o : ℤ → ℚ,
      (∀ ch ∈ chs, ch < numCh → ∀ f : ℕ, f < frames → idx ≠ (f : ℤ) * numCh + ch) →
      channelsWrite numCh vol mono frames chs o idx = o idx := by
  induction chs with
  | nil => intro o _; rfl
  | cons ch rest ih =>
    intro o h
    simp only [channelsWrite]
    rw [ih _ fun c' hc' => h c' (List.mem_cons_of_mem _ hc')]
    by_cases hch : ch < numCh
    · rw [if_pos hch]
      exact flatWrite_ne numCh vol mono ch o frames (h ch (List.mem_cons_self _ _) hch)
    · rw [if_neg hch]

theorem channelsWrite_at (numCh : ℤ) (hnc : 0 < numCh) (vol : ℚ) (mono : List ℚ)
    (frames : ℕ) {f : ℕ} (hf : f < frames) {c : ℤ} (hc0 : 0 ≤ c) (hc1 : c < numCh)
    (chs : List ℤ) :
    ∀ o : ℤ → ℚ, (∀ ch ∈ chs, 0 ≤ ch) → chs.Nodup →
      channelsWrite numCh vol mono frames chs o ((f : ℤ) * numCh + c) =
        o ((f : ℤ) * numCh + c) + (if c ∈ chs then mono.getD f 0 * vol else 0) := by
  induction chs with
  | nil =>
    intro o _ _
    simp [channelsWrite]
  | cons ch rest ih =>
    intro o hpos hnd
    rcases List.nodup_cons.mp hnd with ⟨hch_rest, hnd_rest⟩
    simp only [channelsWrite]
    by_cases hcc : ch = c
    · subst hcc
      rw [if_pos hc1]
      rw [channelsWrite_not_hit numCh vol mono frames rest _ ?hno]
      case hno =>
        intro ch' hch' hlt' g hg
        refine frame_channel_ne numCh hnc hc0 hc1
          (hpos ch' (List.mem_cons_of_mem _ hch')) hlt' ?_
        intro he
        exact hch_rest (he ▸ hch')
      rw [flatWrite_at numCh (ne_of_gt hnc) vol mono ch o frames hf,
        if_pos (List.mem_cons_self ch rest)]
    · have hmem : (c ∈ ch :: rest) ↔ (c ∈ rest) := by
        constructor
        · intro h
          cases h with
          | head => exact absurd rfl hcc
          | tail _ hm => exact hm
        · exact fun h => List.mem_cons_of_mem _ h
      by_cases hch : ch < numCh
      · rw [if_pos hch]
        rw [ih _ (fun c' hc' => hpos c' (List.mem_cons_of_mem _ hc')) hnd_rest]
        rw [flatWrite_ne numCh vol mono ch o frames
          (fun g hg =>
            frame_channel_ne numCh hnc hc0 hc1 (hpos ch (List.mem_cons_self _ _)) hch
              (fun hcontra => hcc hcontra.symm))]
        rw [if_congr hmem rfl rfl]
      · rw [if_neg hch]
        rw [ih _ (fun c' hc' => hpos c' (List.mem_cons_of_mem _ hc')) hnd_rest]
        rw [if_congr hmem rfl rfl]

theorem mixPatches_at (e : AudioEngine) (frames : ℕ) (phi vol : ℚ)
    (hnc : 0 < e.numOutputChannels) {f : ℕ} (hf : f < frames) {c : ℤ}
    (hc0 : 0 ≤ c) (hc1 : c < e.numOutputChannels)
    (hwt : ∀ pr ∈ e.synths, pr.2.wavetable ≠ [])
    (ps : List (String × Patch)) :
    ∀ (mono0 : List ℚ) (o : ℤ → ℚ),
      (∀ pr ∈ ps, ∀ ch ∈ pr.2.channels, 0 ≤ ch) →
      (∀ pr ∈ ps, pr.2.channels.Nodup) →
      (e.mixPatches frames phi vol ps (mono0, o)).2 ((f : ℤ) * e.numOutputChannels + c) =
        o ((f : ℤ) * e.numOutputChannels + c) +
          vol * ((ps.map (e.patchContribution phi f c)).sum) := by
  induction ps with
  | nil =>
    intro mono0 o _ _
    simp [AudioEngine.mixPatches]
  | cons pr rest ih =>
    intro mono0 o hchan hnd
    simp only [AudioEngine.mixPatches]
    rcases hlk : mapFind? pr.2.synth_name e.synths with _ | s
    · have hstep : e.mixPatch frames phi vol (mono0, o) pr = (mono0, o) := by
        simp [AudioEngine.mixPatch, hlk]
      rw [hstep,
        ih mono0 o (fun p hp => hchan p (List.mem_cons_of_mem _ hp))
          (fun p hp => hnd p (List.mem_cons_of_mem _ hp))]
      have hcontrib : e.patchContribution phi f c pr = 0 := by
        simp [AudioEngine.patchContribution, hlk]
      rw [List.map_cons, List.sum_cons, hcontrib]
      ring
    · cases hp : s.is_playing
      · have hstep : e.mixPatch frames phi vol (mono0, o) pr = (mono0, o) := by
          simp [AudioEngine.mixPatch, hlk, hp]
        rw [hstep,
          ih mono0 o (fun p hp' => hchan p (List.mem_cons_of_mem _ hp'))
            (fun p hp' => hnd p (List.mem_cons_of_mem _ hp'))]
        have hcontrib : e.patchContribution phi f c pr = 0 := by
          simp [AudioEngine.patchContribution, hlk, hp]
        rw [List.map_cons, List.sum_cons, hcontrib]
        ring
      · have hwt' : s.wavetable ≠ [] := hwt _ (mapFind?_mem hlk)
        have hstep : e.mixPatch frames phi vol (mono0, o) pr =
            (s.render mono0 frames phi,
              channelsWrite e.numOutputChannels vol (s.render mono0 frames phi) frames
                pr.2.channels o) := by
          simp [AudioEngine.mixPatch, hlk, hp]
        rw [hstep,
          ih _ _ (fun p hp' => hchan p (List.mem_cons_of_mem _ hp'))
            (fun p hp' => hnd p (List.mem_cons_of_mem _ hp'))]
        rw [channelsWrite_at e.numOutputChannels hnc vol _ frames hf hc0 hc1
          pr.2.channels o (hchan pr (List.mem_cons_self _ _))
          (hnd pr (List.mem_cons_self _ _))]
        rw [render_getD s mono0 frames phi hwt' hf]
        have hcontrib : e.patchContribution phi f c pr =
            if c ∈ pr.2.channels then s.renderSample (phi + (f : ℚ)) else 0 := by
          simp [AudioEngine.patchContribution, hlk, hp]
        rw [List.map_cons, List.sum_cons, hcontrib]
        by_cases hmem : c ∈ pr.2.channels
        · rw [if_pos hmem, if_pos hmem]
          ring
        · rw [if_neg hmem, if_neg hmem]
          ring

/-- The engine with every channel index `≥ numOutputChannels` dropped from
every patch (the indices the callback's bound check skips). -/
def AudioEngine.filterHighChannels (e : AudioEngine) : AudioEngine :=
  { e with
    patches :=
      e.patches.map fun pr =>
        (pr.1,
          { pr.2 with channels := pr.2.channels.filter fun ch => decide (ch < e.numOutputChannels) }) }

theorem flatWrite_support (numCh : ℤ) (vol : ℚ) (mono : List ℚ) (c : ℤ) (o : ℤ → ℚ)
    (frames : ℕ) {idx : ℤ} (h : flatWrite numCh vol mono c o frames idx ≠ o idx) :
    ∃ f : ℕ, f < frames ∧ idx = (f : ℤ) * numCh + c := by
  induction frames with
  | zero => exact absurd rfl h
  | succ n ih =>
    by_cases hidx : idx = (n : ℤ) * numCh + c
    · exact ⟨n, Nat.lt_succ_self n, hidx⟩
    · simp only [flatWrite] at h
      rw [Function.update_noteq hidx] at h
      obtain ⟨f, hf, he⟩ := ih h
      exact ⟨f, Nat.lt_succ_of_lt hf, he⟩

theorem channelsWrite_support (numCh : ℤ) (vol : ℚ) (mono : List ℚ) (frames : ℕ)
    (chs : List ℤ) {idx : ℤ} :
    ∀ o : ℤ → ℚ, channelsWrite numCh vol mono frames chs o idx ≠ o idx →
      ∃ ch ∈ chs, ch < numCh ∧ ∃ f : ℕ, f < frames ∧ idx = (f : ℤ) * numCh + ch := by
  induction chs with
  | nil => intro o h; exact absurd rfl h
  | cons ch rest ih =>
    intro o h
    simp only [channelsWrite] at h
    by_cases hch : ch < numCh
    · rw [if_pos hch] at h
      by_cases h1 :
          channelsWrite numCh vol mono frames rest (flatWrite numCh vol mono ch o frames) idx =
            flatWrite numCh vol mono ch o frames idx
      · rw [h1] at h
        obtain ⟨f, hf, he⟩ := flatWrite_support numCh vol mono ch o frames h
        exact ⟨ch, List.mem_cons_self _ _, hch, f, hf, he⟩
      · obtain ⟨ch', hm, hlt, hrest⟩ := ih _ h1
        exact ⟨ch', List.mem_cons_of_mem _ hm, hlt, hrest⟩
    · rw [if_neg hch] at h
      obtain ⟨ch', hm, hlt, hrest⟩ := ih _ h
      exact ⟨ch', List.mem_cons_of_mem _ hm, hlt, hrest⟩

theorem mixPatches_support (e : AudioEngine) (frames : ℕ) (phi vol : ℚ)
    (ps : List (String × Patch)) {idx : ℤ} :
    ∀ st : List ℚ × (ℤ → ℚ), (e.mixPatches frames phi vol ps st).2 idx ≠ st.2 idx →
      ∃ f : ℕ, f < frames ∧ ∃ ch : ℤ, ch < e.numOutputChannels ∧
        idx = (f : ℤ) * e.numOutputChannels + ch := by
  induction ps with
  | nil => intro st h; exact absurd rfl h
  | cons pr rest ih =>
    intro st h
    simp only [AudioEngine.mixPatches] at h
    by_cases h1 : (e.mixPatches frames phi vol rest (e.mixPatch frames phi vol st pr)).2 idx =
        (e.mixPatch frames phi vol st pr).2 idx
    · rw [h1] at h
      rcases hlk : mapFind? pr.2.synth_name e.synths with _ | s
      · rw [show e.mixPatch frames phi vol st pr = st by simp [AudioEngine.mixPatch, hlk]] at h
        exact absurd rfl h
      · cases hp : s.is_playing
        · rw [show e.mixPatch frames phi vol st pr = st by
            simp [AudioEngine.mixPatch, hlk, hp]] at h
          exact absurd rfl h
        · rw [show (e.mixPatch frames phi vol st pr).2 =
              channelsWrite e.numOutputChannels vol (s.render st.1 frames phi) frames
                pr.2.channels st.2 by simp [AudioEngine.mixPatch, hlk, hp]] at h
          obtain ⟨ch, _, hlt, f, hf, he⟩ :=
            channelsWrite_support e.numOutputChannels vol (s.render st.1 frames phi) frames
              pr.2.channels st.2 h
          exact ⟨f, hf, ch, hlt, he⟩
    · exact ih _ h1

theorem channelsWrite_filter (numCh : ℤ) (vol : ℚ) (mono : List ℚ) (frames : ℕ)
    (chs : List ℤ) :
    ∀ o : ℤ → ℚ,
      channelsWrite numCh vol mono frames (chs.filter fun ch => decide (ch < numCh)) o =
        channelsWrite numCh vol mono frames chs o := by
  induction chs with
  | nil => intro o; rfl
  | cons ch rest ih =>
    intro o
    by_cases hch : ch < numCh
    · rw [List.filter_cons_of_pos (by simpa using hch)]
      simp only [channelsWrite]
      exact ih _
    · rw [List.filter_cons_of_neg (by simpa using hch)]
      simp only [channelsWrite, if_neg hch]
      exact ih o

theorem mixPatch_filter_eq (e : AudioEngine) (frames : ℕ) (phi vol : ℚ)
    (st : List ℚ × (ℤ → ℚ)) (pr : String × Patch) :
    e.filterHighChannels.mixPatch frames phi vol st
      (pr.1,
        { pr.2 with
          channels := pr.2.channels.filter fun ch => decide (ch < e.numOutputChannels) }) =
    e.mixPatch frames phi vol st pr := by
  rcases hlk : mapFind? pr.2.synth_name e.synths with _ | s
  · simp [AudioEngine.mixPatch, AudioEngine.filterHighChannels, hlk]
  · cases hp : s.is_playing
    · simp [AudioEngine.mixPatch, AudioEngine.filterHighChannels, hlk, hp]
    · simp [AudioEngine.mixPatch, AudioEngine.filterHighChannels, hlk, hp, channelsWrite_filter]

theorem mixPatches_filter_eq (e : AudioEngine) (frames : ℕ) (phi vol : ℚ)
    (ps : List (String × Patch)) :
    ∀ st : List ℚ × (ℤ → ℚ),
      e.filterHighChannels.mixPatches frames phi vol
        (ps.map fun pr =>
          (pr.1,
            { pr.2 with
              channels := pr.2.channels.filter fun ch => decide (ch < e.numOutputChannels) }))
        st =
      e.mixPatches frames phi vol ps st := by
  induction ps with
  | nil => intro st; rfl
  | cons pr rest ih =>
    intro st
    simp only [List.map_cons, AudioEngine.mixPatches]
    rw [mixPatch_filter_eq e frames phi vol st pr]
    exact ih _

/-- A playing synth with the constant one-entry wavetable `[2]`: every
rendered sample is `2 * (1/2) = 1`. -/
def synthA : Synth :=
  { is_playing := true, phase_offset := 0, sample_rate := 48000, amplitude := 1/2,
    frequency := 440, wavetable := [2] }

/-- A playing synth with the constant one-entry wavetable `[4]`: every
rendered sample is `4 * (1/2) = 2`. -/
def synthB : Synth :=
  { synthA with wavetable := [4] }

/-- Two playing synths routed to the same output channel `0` of a two-channel
engine with master volume `1/2`. -/
def engMix : AudioEngine :=
  { sample_rate := 48000, numOutputChannels := 2, master_volume := 1/2, master_phase := 0,
    synths := [("a", synthA), ("b", synthB)],
    patches := [("p1", { synth_name := "a", channels := [0] }),
                ("p2", { synth_name := "b", channels := [0] })] }

/-- A two-channel engine whose single patch routes a playing synth to the
negative channel index `-1`. -/
def engNeg : AudioEngine :=
  { sample_rate := 48000, numOutputChannels := 2, master_volume := 1, master_phase := 0,
    synths := [("s", synthA)],
    patches := [("p", { synth_name := "s", channels := [-1] })] }

/-- A two-channel engine with one synth and two patches bound to it. -/
def engDel : AudioEngine :=
  { sample_rate := 48000, numOutputChannels := 2, master_volume := 1, master_phase := 0,
    synths := [("s", synthA)],
    patches := [("p1", { synth_name := "s", channels := [0] }),
                ("p2", { synth_name := "s", channels := [1] })] }

/-- Claim C1: for a synth with a non-empty wavetable of size `N`,
`render(mono_out, frames, master_phase_start)` writes, for each frame `i`
below `frames`, the sample
`(wavetable[i0] + frac * (wavetable[i1] - wavetable[i0])) * amplitude`
where `total_cycles = ((master_phase_start + i) * frequency) / sample_rate`,
`phase_with_offset = total_cycles * N + phase_offset * N`, `phase_wrapped`
is `phase_with_offset` `fmod` `N` brought into `[0, N)` (adding `N` if
negative), `i0 = floor(phase_wrapped)`, `i1 = (i0 + 1) mod N` and
`frac = phase_wrapped - i0`; both indices are in bounds. -/
theorem claim_render_interpolates (s : Synth) (mono : List ℚ) (frames : ℕ) (phi : ℚ)
    (hwt : s.wavetable ≠ []) :
    (s.render mono frames phi).length = frames ∧
    ∀ i, i < frames →
      (s.render mono frames phi).getD i 0 = s.specSample (phi + (i : ℚ)) ∧
      s.specI0 (phi + (i : ℚ)) < s.wavetable.length ∧
      s.specI1 (phi + (i : ℚ)) < s.wavetable.length := by
  refine ⟨render_length s mono frames phi hwt, fun i hi =>
    ⟨?_, specI0_lt s _ hwt, specI1_lt s _ hwt⟩⟩
  rw [render_getD s mono frames phi hwt hi, renderSample_eq_specSample s _ hwt]

/-- Witness for C1 at a concrete synth and frame count. -/
theorem claim_render_interpolates_witness :
    (synthA.render [0, 0] 2 0).length = 2 ∧
    (synthA.render [0, 0] 2 0).getD 0 0 = synthA.specSample ((0 : ℚ) + ((0 : ℕ) : ℚ)) := by
  have h := claim_render_interpolates synthA [0, 0] 2 0 (by decide)
  exact ⟨h.1, (h.2 0 (by decide)).1⟩

/-- Claim C9: `start` and `stop` change only `is_playing` and leave
frequency, amplitude, phase offset, sample rate and the wavetable exactly
unchanged. -/
theorem claim_start_stop_only_playing (s : Synth) :
    s.start.is_playing = true ∧ s.stop.is_playing = false ∧
    s.start.frequency = s.frequency ∧ s.stop.frequency = s.frequency ∧
    s.start.amplitude = s.amplitude ∧ s.stop.amplitude = s.amplitude ∧
    s.start.phase_offset = s.phase_offset ∧ s.stop.phase_offset = s.phase_offset ∧
    s.start.sample_rate = s.sample_rate ∧ s.stop.sample_rate = s.sample_rate ∧
    s.start.wavetable = s.wavetable ∧ s.stop.wavetable = s.wavetable :=
  ⟨rfl, rfl, rfl, rfl, rfl, rfl, rfl, rfl, rfl, rfl, rfl, rfl⟩

/-- Claim C4: a synth's wavetable contains at least one sample after
construction and after every operation; `update_wavetable` with an empty
sequence is a silent no-op, with a non-empty sequence it replaces the table
exactly. -/
theorem claim_wavetable_never_empty (sample_rate : ℚ) (t u : List ℚ) (s : Synth)
    (hs : s.wavetable ≠ []) (freq amp offset : ℚ) :
    (Synth.make sample_rate t).wavetable ≠ [] ∧
    (u = [] → s.update_wavetable u = s) ∧
    (u ≠ [] → (s.update_wavetable u).wavetable = u) ∧
    (s.update_wavetable u).wavetable ≠ [] ∧
    s.start.wavetable = s.wavetable ∧
    s.stop.wavetable = s.wavetable ∧
    (s.set_frequency freq).wavetable = s.wavetable ∧
    (s.set_amplitude amp).wavetable = s.wavetable ∧
    (s.set_phase_offset offset).wavetable = s.wavetable := by
  refine ⟨?_, ?_, ?_, ?_, rfl, rfl, rfl, rfl, rfl⟩
  · unfold Synth.make
    split
    · simp
    · next h => simpa using h
  · intro h
    unfold Synth.update_wavetable
    rw [if_pos h]
  · intro h
    unfold Synth.update_wavetable
    rw [if_neg h]
  · unfold Synth.update_wavetable
    split
    · exact hs
    · next h => simpa using h

/-- Witness for C4 at a concrete synth and tables. -/
theorem claim_wavetable_never_empty_witness :
    (Synth.make 48000 [1]).wavetable ≠ [] ∧ synthA.update_wavetable [] = synthA := by
  have h := claim_wavetable_never_empty 48000 [1] [] synthA (by decide) 440 (1/2) 0
  exact ⟨h.1, h.2.1 rfl⟩

/-- Claim C10: constructing a synth from an empty sample sequence does not
fail and does not produce an empty table: the wavetable becomes exactly
`[0]`, also when the construction happens through `get_or_create_synth`
with an empty array for a fresh name. -/
theorem claim_empty_table_zero_sample (sample_rate : ℚ) (e : AudioEngine) (name : String)
    (h : mapFind? name e.synths = none) :
    (Synth.make sample_rate []).wavetable = [0] ∧
    (e.get_or_create_synth name []).2.wavetable = [0] ∧
    mapFind? name (e.get_or_create_synth name []).1.synths =
      some (Synth.make e.sample_rate []) := by
  refine ⟨rfl, ?_, ?_⟩
  · simp [AudioEngine.get_or_create_synth, h, Synth.make]
  · simp [AudioEngine.get_or_create_synth, h, mapFind?_insert_self]

/-- Witness for C10 at a concrete engine and fresh name. -/
theorem claim_empty_table_zero_sample_witness :
    (engMix.get_or_create_synth "c" []).2.wavetable = [0] :=
  (claim_empty_table_zero_sample 48000 engMix "c" (by decide)).2.1

/-- Claim C5: `get_or_create_synth` is idempotent by name.  For a registered
name it returns the registered synth with all state other than the
wavetable preserved and the wavetable replaced subject to the non-empty
rule; for a fresh name it registers and returns a new synth constructed at
the engine's sample rate from the given table. -/
theorem claim_get_or_create_synth_idempotent (e : AudioEngine) (name : String)
    (table : List ℚ) :
    (∀ s, mapFind? name e.synths = some s →
      (e.get_or_create_synth name table).2 = s.update_wavetable table ∧
      mapFind? name (e.get_or_create_synth name table).1.synths =
        some (s.update_wavetable table) ∧
      (s.update_wavetable table).is_playing = s.is_playing ∧
      (s.update_wavetable table).frequency = s.frequency ∧
      (s.update_wavetable table).amplitude = s.amplitude ∧
      (s.update_wavetable table).phase_offset = s.phase_offset ∧
      (s.update_wavetable table).sample_rate = s.sample_rate ∧
      (table ≠ [] → (s.update_wavetable table).wavetable = table) ∧
      (table = [] → (s.update_wavetable table).wavetable = s.wavetable)) ∧
    (mapFind? name e.synths = none →
      (e.get_or_create_synth name table).2 = Synth.make e.sample_rate table ∧
      mapFind? name (e.get_or_create_synth name table).1.synths =
        some (Synth.make e.sample_rate table) ∧
      (Synth.make e.sample_rate table).sample_rate = e.sample_rate) := by
  constructor
  · intro s hs
    refine ⟨?_, ?_, ?_, ?_, ?_, ?_, ?_, ?_, ?_⟩
    · simp [AudioEngine.get_or_create_synth, hs]
    · simp [AudioEngine.get_or_create_synth, hs, mapFind?_insert_self]
    · unfold Synth.update_wavetable
      split <;> rfl
    · unfold Synth.update_wavetable
      split <;> rfl
    · unfold Synth.update_wavetable
      split <;> rfl
    · unfold Synth.update_wavetable
      split <;> rfl
    · unfold Synth.update_wavetable
      split <;> rfl
    · intro h
      unfold Synth.update_wavetable
      rw [if_neg h]
    · intro h
      unfold Synth.update_wavetable
      rw [if_pos h]
  · intro h
    refine ⟨?_, ?_, ?_⟩
    · simp [AudioEngine.get_or_create_synth, h]
    · simp [AudioEngine.get_or_create_synth, h, mapFind?_insert_self]
    · unfold Synth.make
      split <;> rfl

/-- Witness for C5: re-registering `"a"` on the concrete engine keeps the
registered synth's identity (its `is_playing` state) and swaps the table. -/
theorem claim_get_or_create_synth_idempotent_witness :
    mapFind? "a" (engMix.get_or_create_synth "a" [5]).1.synths =
      some (synthA.update_wavetable [5]) ∧
    (synthA.update_wavetable [5]).is_playing = synthA.is_playing := by
  have h := (claim_get_or_create_synth_idempotent engMix "a" [5]).1 synthA rfl
  exact ⟨h.2.1, h.2.2.1⟩

/-- Claim C6: `get_or_create_patch` throws exactly when the synth name is
unregistered, and a throwing call leaves the engine state exactly as it
was. -/
theorem claim_unknown_synth_error (e : AudioEngine) (patch_name synth_name : String)
    (channels : List ℤ) :
    ((∃ msg, e.get_or_create_patch patch_name synth_name channels = Except.error msg) ↔
      mapFind? synth_name e.synths = none) ∧
    (mapFind? synth_name e.synths = none →
      e.patchCallState patch_name synth_name channels = e) := by
  constructor
  · constructor
    · rintro ⟨msg, hmsg⟩
      by_cases h : (mapFind? synth_name e.synths).isNone
      · exact Option.isNone_iff_eq_none.mp h
      · exfalso
        unfold AudioEngine.get_or_create_patch at hmsg
        rw [if_neg h] at hmsg
        split at hmsg <;> cases hmsg
    · intro h
      refine ⟨"Cannot create patch: synth does not exist.", ?_⟩
      unfold AudioEngine.get_or_create_patch
      rw [if_pos (Option.isNone_iff_eq_none.mpr h)]
  · intro h
    unfold AudioEngine.patchCallState AudioEngine.get_or_create_patch
    rw [if_pos (Option.isNone_iff_eq_none.mpr h)]

/-- Witness for C6: creating a patch against the unregistered synth name
`"zzz"` mutates nothing on the concrete engine. -/
theorem claim_unknown_synth_error_witness :
    engMix.patchCallState "p9" "zzz" [0] = engMix :=
  (claim_unknown_synth_error engMix "p9" "zzz" [0]).2 (by decide)

/-- Claim C3: each render callback advances `master_phase` by exactly the
buffer's frame count, exactly once; the phase never decreases and no other
engine operation modifies it. -/
theorem claim_master_phase_monotone (e : AudioEngine) (frames : ℕ)
    (name patch_name synth_name : String) (table : List ℚ) (channels : List ℤ)
    (volume : ℚ) :
    (e.paCallback frames).1.master_phase = e.master_phase + (frames : ℚ) ∧
    e.master_phase ≤ (e.paCallback frames).1.master_phase ∧
    (e.get_or_create_synth name table).1.master_phase = e.master_phase ∧
    (e.patchCallState patch_name synth_name channels).master_phase = e.master_phase ∧
    (e.delete_synth name).master_phase = e.master_phase ∧
    (e.delete_patch name).master_phase = e.master_phase ∧
    e.cleanup.master_phase = e.master_phase ∧
    (e.set_master_volume volume).master_phase = e.master_phase ∧
    e.stop_all.master_phase = e.master_phase := by
  have hcb : (e.paCallback frames).1.master_phase = e.master_phase + (frames : ℚ) := by
    simp [AudioEngine.paCallback, cleanup_master_phase]
  refine ⟨hcb, ?_, ?_, ?_, ?_, ?_, cleanup_master_phase e, rfl, rfl⟩
  · rw [hcb]
    have h0 : (0 : ℚ) ≤ (frames : ℚ) := Nat.cast_nonneg frames
    linarith
  · unfold AudioEngine.get_or_create_synth
    split <;> rfl
  · unfold AudioEngine.patchCallState AudioEngine.get_or_create_patch
    by_cases h : (mapFind? synth_name e.synths).isNone
    · rw [if_pos h]
    · rw [if_neg h]
      rcases mapFind? patch_name e.patches with _ | p <;> rfl
  · unfold AudioEngine.delete_synth
    split <;> rfl
  · unfold AudioEngine.delete_patch
    split <;> rfl

/-- Claim C2: for a callback on an engine with no pending deletions, positive
channel count, per-patch channel lists made of distinct non-negative
indices, and non-empty wavetables, the output at frame `f` of in-range
channel `c` is `master_volume` times the sum over the patches of the
rendered sample of each patch's playing synth when that patch routes to
`c` — plain accumulation with no clipping or limiting. -/
theorem claim_mix_additive (e : AudioEngine) (frames f : ℕ) (c : ℤ)
    (hnc : 0 < e.numOutputChannels) (hc0 : 0 ≤ c) (hc1 : c < e.numOutputChannels)
    (hf : f < frames)
    (hchan : ∀ pr ∈ e.patches, ∀ ch ∈ pr.2.channels, 0 ≤ ch)
    (hnd : ∀ pr ∈ e.patches, pr.2.channels.Nodup)
    (hwt : ∀ pr ∈ e.synths, pr.2.wavetable ≠ [])
    (hq1 : e.synth_names_to_delete = []) (hq2 : e.patch_names_to_delete = []) :
    (e.paCallback frames).2 ((f : ℤ) * e.numOutputChannels + c) =
      e.master_volume *
        ((e.patches.map (e.patchContribution e.master_phase f c)).sum) := by
  simp only [AudioEngine.paCallback]
  rw [cleanup_eq_self hq1 hq2]
  rw [mixPatches_at e frames e.master_phase e.master_volume hnc hf hc0 hc1 hwt e.patches
    (List.replicate frames 0) (fun _ => 0) hchan hnd]
  simp

/-- Witness for C2: two constant-amplitude patches (`1` and `2`) on channel
`0` of `engMix` with master volume `1/2` mix to `1/2 * (1 + 2) = 3/2`,
exceeding `1` with no clipping. -/
theorem synthA_renderSample_zero : synthA.renderSample 0 = 1 := by
  norm_num [Synth.renderSample, Synth.phaseWrapped, cfmod, qtrunc, synthA]

theorem synthB_renderSample_zero : synthB.renderSample 0 = 2 := by
  norm_num [Synth.renderSample, Synth.phaseWrapped, cfmod, qtrunc, synthB, synthA]

theorem engMix_vol : engMix.master_volume = 1/2 := rfl

theorem engMix_phase : engMix.master_phase = 0 := rfl

theorem engMix_patches :
    engMix.patches = [("p1", { synth_name := "a", channels := [0] }),
      ("p2", { synth_name := "b", channels := [0] })] := rfl

theorem engMix_findA : mapFind? "a" engMix.synths = some synthA := rfl

theorem engMix_findB : mapFind? "b" engMix.synths = some synthB := rfl

theorem synthA_playing : synthA.is_playing = true := rfl

theorem synthB_playing : synthB.is_playing = true := rfl

theorem claim_mix_additive_witness :
    (engMix.paCallback 1).2 0 = 3/2 := by
  have h := claim_mix_additive engMix 1 0 0 (by decide) (by decide) (by decide) (by decide)
    (by decide) (by decide) (by decide) rfl rfl
  have h0 : (((0 : ℕ) : ℤ) * engMix.numOutputChannels + 0 : ℤ) = 0 := by decide
  rw [h0] at h
  rw [h, engMix_vol, engMix_phase, engMix_patches]
  simp only [List.map_cons, List.map_nil, List.sum_cons, List.sum_nil,
    AudioEngine.patchContribution]
  rw [engMix_findA, engMix_findB]
  simp only [synthA_playing, synthB_playing]
  norm_num [synthA_renderSample_zero, synthB_renderSample_zero]

/-- Claim C7: for a registered name, `delete_synth` only enqueues — the maps
are untouched until cleanup — adding the synth name and the name of every
patch currently bound to it to the deletion queues; the cleanup pass at the
start of the next callback then removes them, so the synth and its patches
are absent from `list_synths`/`list_patches`; a patch whose synth is
missing from the map contributes nothing to the mix; for an unknown name
`delete_synth` is a no-op. -/
theorem claim_delete_synth_deferred (e : AudioEngine) (name : String) (frames : ℕ)
    (phi vol : ℚ) :
    ((mapFind? name e.synths).isSome →
      (e.delete_synth name).synths = e.synths ∧
      (e.delete_synth name).patches = e.patches ∧
      (e.delete_synth name).synth_names_to_delete = e.synth_names_to_delete ++ [name] ∧
      (e.delete_synth name).patch_names_to_delete =
        e.patch_names_to_delete ++
          ((e.patches.filter fun pr => decide (pr.2.synth_name = name)).map Prod.fst) ∧
      name ∉ (e.delete_synth name).cleanup.list_synths ∧
      (∀ patch_name p, (patch_name, p) ∈ e.patches → p.synth_name = name →
        patch_name ∉ (e.delete_synth name).cleanup.list_patches)) ∧
    ((mapFind? name e.synths).isNone → e.delete_synth name = e) ∧
    (∀ (st : List ℚ × (ℤ → ℚ)) (pr : String × Patch),
      mapFind? pr.2.synth_name e.synths = none → e.mixPatch frames phi vol st pr = st) := by
  refine ⟨?_, ?_, ?_⟩
  · intro h
    have hno : ¬ ((mapFind? name e.synths).isNone = true) := by
      rcases hfind : mapFind? name e.synths with _ | s
      · rw [hfind] at h
        cases h
      · simp
    have hds : e.delete_synth name =
        { e with
          synth_names_to_delete := e.synth_names_to_delete ++ [name],
          patch_names_to_delete :=
            e.patch_names_to_delete ++
              ((e.patches.filter fun pr => decide (pr.2.synth_name = name)).map Prod.fst) } := by
      unfold AudioEngine.delete_synth
      rw [if_neg hno]
    refine ⟨by rw [hds], by rw [hds], by rw [hds], by rw [hds], ?_, ?_⟩
    · rw [hds]
      unfold AudioEngine.cleanup
      rw [if_neg ?hne1]
      case hne1 =>
        rintro ⟨h1, h2⟩
        simp at h1
      exact foldl_mapErase_not_mem _ _ (List.mem_append_right _ (List.mem_singleton.mpr rfl)) _
    · intro patch_name p hmem hsy
      rw [hds]
      unfold AudioEngine.cleanup
      rw [if_neg ?hne2]
      case hne2 =>
        rintro ⟨h1, h2⟩
        simp at h1
      refine foldl_mapErase_not_mem _ _ (List.mem_append_right _ ?_) _
      exact List.mem_map.mpr
        ⟨(patch_name, p), List.mem_filter.mpr ⟨hmem, by simp [hsy]⟩, rfl⟩
  · intro h
    unfold AudioEngine.delete_synth
    rw [if_pos h]
  · intro st pr hlk
    simp [AudioEngine.mixPatch, hlk]

/-- Witness for C7: deleting `"s"` on the concrete engine removes the synth
and both patches bound to it after one cleanup pass. -/
theorem claim_delete_synth_deferred_witness :
    "s" ∉ (engDel.delete_synth "s").cleanup.list_synths ∧
    "p1" ∉ (engDel.delete_synth "s").cleanup.list_patches ∧
    "p2" ∉ (engDel.delete_synth "s").cleanup.list_patches := by
  have h := (claim_delete_synth_deferred engDel "s" 1 0 1).1 rfl
  refine ⟨h.2.2.2.2.1, ?_, ?_⟩
  · exact h.2.2.2.2.2 "p1" { synth_name := "s", channels := [0] } (by decide) rfl
  · exact h.2.2.2.2.2 "p2" { synth_name := "s", channels := [1] } (by decide) rfl

theorem engNeg_phase : engNeg.master_phase = 0 := rfl

theorem engNeg_vol : engNeg.master_volume = 1 := rfl

theorem engNeg_channels : engNeg.numOutputChannels = 2 := rfl

theorem engNeg_patches :
    engNeg.patches = [("p", { synth_name := "s", channels := [-1] })] := rfl

theorem engNeg_findS : mapFind? "s" engNeg.synths = some synthA := rfl

theorem synthA_render_one :
    synthA.render (List.replicate 1 0) 1 0 = [synthA.renderSample 0] := by
  unfold Synth.render
  rw [if_neg (by decide), show List.range 1 = [0] by decide]
  simp

theorem engNeg_out : (engNeg.paCallback 1).2 (-1) = 1 := by
  simp only [AudioEngine.paCallback, @cleanup_eq_self engNeg rfl rfl]
  rw [engNeg_patches]
  simp only [AudioEngine.mixPatches, AudioEngine.mixPatch]
  rw [engNeg_findS]
  simp only [synthA_playing, if_true, engNeg_phase, engNeg_vol, engNeg_channels,
    synthA_render_one]
  simp only [channelsWrite]
  rw [if_pos (by decide : (-1 : ℤ) < 2)]
  simp only [flatWrite]
  rw [show (((0 : ℕ) : ℤ) * 2 + -1 : ℤ) = -1 by decide]
  rw [Function.update_same]
  simp [synthA_renderSample_zero]

/-- Claim C8 is false on the code: the mix-time guard is only
`channel_index < numOutputChannels`, with no lower bound, so a negative
channel index is not skipped.  On the concrete two-channel engine whose
single patch routes a playing constant-`1` synth to channel `-1`, one
callback of one frame writes the nonzero sample `1` at flat buffer offset
`-1 = 0 * numOutputChannels + (-1)`, which lies outside the in-range
positions `[0, frames * numOutputChannels)` — the callback wrote out of
bounds instead of skipping the index. -/
theorem claim_channel_guard_counterexample :
    (engNeg.paCallback 1).2 (-1) = 1 ∧ (engNeg.paCallback 1).2 (-1) ≠ 0 ∧
    (-1 : ℤ) < 0 ∧ engNeg.numOutputChannels = 2 := by
  refine ⟨engNeg_out, ?_, by decide, rfl⟩
  rw [engNeg_out]
  exact one_ne_zero

/-- Claim C8 amended: a channel index `≥ numOutputChannels` is silently
skipped at mix time without error (dropping all such indices leaves the
callback's output unchanged), but negative indices are not skipped: every
write of the callback lands at flat offset
`frame * numOutputChannels + channel` with `channel < numOutputChannels`
(possibly negative), so nonzero output can only appear at such offsets —
and for a negative channel at frame `0` that offset lies before the
buffer. -/
theorem claim_channel_guard_amended (e : AudioEngine) (frames : ℕ)
    (hq1 : e.synth_names_to_delete = []) (hq2 : e.patch_names_to_delete = []) :
    (e.filterHighChannels.paCallback frames).2 = (e.paCallback frames).2 ∧
    (∀ idx : ℤ, (e.paCallback frames).2 idx ≠ 0 →
      ∃ f : ℕ, f < frames ∧ ∃ ch : ℤ, ch < e.numOutputChannels ∧
        idx = (f : ℤ) * e.numOutputChannels + ch) := by
  have hcl : e.cleanup = e := cleanup_eq_self hq1 hq2
  have hclF : e.filterHighChannels.cleanup = e.filterHighChannels :=
    cleanup_eq_self hq1 hq2
  constructor
  · simp only [AudioEngine.paCallback, hcl, hclF]
    have hpat : e.filterHighChannels.patches =
        e.patches.map fun pr =>
          (pr.1,
            { pr.2 with
              channels := pr.2.channels.filter fun ch => decide (ch < e.numOutputChannels) }) :=
      rfl
    rw [hpat, mixPatches_filter_eq]
    rfl
  · intro idx h
    simp only [AudioEngine.paCallback, hcl] at h
    exact mixPatches_support e frames e.master_phase e.master_volume e.patches _ h

/-- Witness for the amended C8 on a concrete engine with empty deletion
queues. -/
theorem claim_channel_guard_amended_witness :
    (engNeg.filterHighChannels.paCallback 1).2 = (engNeg.paCallback 1).2 :=
  (claim_channel_guard_amended engNeg 1 rfl rfl).1
